import Mathlib

/-!
Shallow embedding of the core pipeline of `src/excel_processor.py`
(class `ExcelProcessor`): row classification into metadata and table rows,
record materialization by positional zip against the header row, filtering
by exact string match on one column, projection onto a whitelist of column
names, and the orchestration in `process` with its error surface.

Cell values are modelled by the inductive `Value` (string, integer, blank);
a worksheet row is the list of its cell values; a Python dict is modelled
as an association list built by an insert function with Python dict
semantics (an existing key keeps its position and gets the new value, a
fresh key is appended). Python exceptions are modelled by the `PyErr`
inductive and generator pipelines, which `process` always drains, are
embedded eagerly as `Except`-valued list functions.
-/

namespace ExcelProcessor

/-- Cell values as openpyxl delivers them with data_only=True: a string, a
number (modelled by Int; floats and dates are not needed by the claims), or
an empty cell (Python None). -/
inductive Value where
  | vstr : String → Value
  | vint : Int → Value
  | vnone : Value
  deriving DecidableEq

/-- Python str() applied to a cell value, as in str(row[field[0]].value). -/
def pyStr : Value → String
  | .vstr s => s
  | .vint n => toString n
  | .vnone => "None"

/-- Python membership test of a cell value in WANTED_FIELDS, a tuple of
strings: only a string cell can equal one of the names. -/
def valueInWanted (wanted : List String) : Value → Bool
  | .vstr s => wanted.contains s
  | _ => false

/-- A worksheet row: the list of its cell values, in column order. -/
abbrev Row := List Value

/-- The test any(cell.value in self.WANTED_FIELDS for cell in row) used by
both _rows_of_table and _get_meta_data. -/
def rowHasWanted (wanted : List String) (row : Row) : Bool :=
  row.any (valueInWanted wanted)

/-- Loop body of _rows_of_table with the running is_table flag made
explicit: is_table = is_table or any(...); rows are yielded once the flag
is set. -/
def rows_of_tableAux (wanted : List String) (isTable : Bool) : List Row → List Row
  | [] => []
  | r :: rs =>
    if isTable || rowHasWanted wanted r then
      r :: rows_of_tableAux wanted (isTable || rowHasWanted wanted r) rs
    else
      rows_of_tableAux wanted (isTable || rowHasWanted wanted r) rs

/-- Embedding of ExcelProcessor._rows_of_table: the generator that yields
every row from the first row containing a whitelisted column name onward. -/
def rows_of_table (wanted : List String) (rows : List Row) : List Row :=
  rows_of_tableAux wanted false rows

/-- Loop body of _get_meta_data with the running is_table flag made
explicit: rows are yielded while the flag is still unset. -/
def get_meta_dataAux (wanted : List String) (isTable : Bool) : List Row → List Row
  | [] => []
  | r :: rs =>
    if isTable || rowHasWanted wanted r then
      get_meta_dataAux wanted (isTable || rowHasWanted wanted r) rs
    else
      r :: get_meta_dataAux wanted (isTable || rowHasWanted wanted r) rs

/-- Embedding of ExcelProcessor._get_meta_data: the generator that yields
every row strictly before the first row containing a whitelisted column
name. -/
def get_meta_data (wanted : List String) (rows : List Row) : List Row :=
  get_meta_dataAux wanted false rows

/-- A Record: the Python dict mapping header cell value to data cell value,
modelled as an association list in insertion order with unique keys. -/
abbrev Record := List (Value × Value)

/-- Python dict assignment d[k] = v: an existing key keeps its position and
receives the new value, a fresh key is appended at the end. -/
def dictInsert (d : Record) (k v : Value) : Record :=
  if d.any (fun p => p.1 == k) then
    d.map (fun p => if p.1 == k then (p.1, v) else p)
  else
    d ++ [(k, v)]

/-- Python dict lookup row[k] returning none where Python raises KeyError. -/
def dictGet (d : Record) (k : Value) : Option Value :=
  (d.find? (fun p => p.1 == k)).map (fun p => p.2)

/-- Python row.pop(k, None): remove the key if present, otherwise do
nothing. -/
def dictPop (d : Record) (k : Value) : Record :=
  d.filter (fun p => p.1 != k)

/-- Embedding of one step of _format_data: the dict comprehension
zip(self.fieldnames, row) building one Record from one data row. -/
def format_row (fieldnames : List Value) (row : Row) : Record :=
  (fieldnames.zip row).foldl (fun d p => dictInsert d p.1 p.2) []

/-- Embedding of ExcelProcessor._format_data over the whole data stream. -/
def format_data (fieldnames : List Value) (rows : List Row) : List Record :=
  rows.map (format_row fieldnames)

/-- Projection step of _del_fields on one Record: every fieldname outside
WANTED_FIELDS is popped from the Record. -/
def del_fields_row (wanted : List String) (fieldnames : List Value) (row : Record) : Record :=
  fieldnames.foldl (fun r f => if valueInWanted wanted f then r else dictPop r f) row

/-- Embedding of ExcelProcessor._del_fields over the whole stream. -/
def del_fields (wanted : List String) (fieldnames : List Value) (rows : List Record) : List Record :=
  rows.map (del_fields_row wanted fieldnames)

/-- Python exceptions the pipeline can raise. TablesNotFound, FieldNotFound
and RowsNotFound are the classes imported from cast_exceptions (that module
is not under src; the spec lists them as three distinct terminal errors of
the taxonomy, which is all the embedding needs). keyError and
attributeError are the Python builtins KeyError and AttributeError;
permissionError is the builtin PermissionError that the spec taxonomy
labels FileLockedError. -/
inductive PyErr where
  | tablesNotFound
  | fieldNotFound
  | rowsNotFound
  | keyError : Value → PyErr
  | attributeError
  | permissionError
  deriving DecidableEq

/-- Python str.lower on one character, for the alphabets the program
meets: ASCII letters and the Cyrillic letters А to Я and Ё. -/
def pyCharLower (c : Char) : Char :=
  if 65 ≤ c.toNat ∧ c.toNat ≤ 90 then Char.ofNat (c.toNat + 32)
  else if 1040 ≤ c.toNat ∧ c.toNat ≤ 1071 then Char.ofNat (c.toNat + 32)
  else if c.toNat = 1025 then Char.ofNat 1105
  else c

/-- Python str.lower, the method called on fieldnames and on the requested
field name in _filter_data. -/
def pyLower (s : String) : String :=
  String.mk (s.data.map pyCharLower)

/-- Embedding of list(filter(lambda x: x.lower() == self.field_name.lower(),
self.fieldnames)) in _filter_data: collects, in header order, the
fieldnames whose lowercase form equals the lowercase requested name;
applying .lower() to a non-string fieldname raises AttributeError. -/
def matching_fields (fname : String) : List Value → Except PyErr (List String)
  | [] => Except.ok []
  | v :: rest =>
    match v with
    | .vstr s =>
      (matching_fields fname rest).map
        (fun r => if pyLower s == pyLower fname then s :: r else r)
    | _ => Except.error .attributeError

/-- Row loop of _filter_data once the field is resolved: a Record is
yielded iff str(row[field].value) equals the target value exactly; a Record
lacking the key raises KeyError. -/
def filter_rows (f : String) (value : String) : List Record → Except PyErr (List Record)
  | [] => Except.ok []
  | r :: rs =>
    match dictGet r (.vstr f) with
    | none => Except.error (.keyError (.vstr f))
    | some cv =>
      (filter_rows f value rs).map
        (fun rest => if pyStr cv == value then r :: rest else rest)

/-- Embedding of ExcelProcessor._filter_data: resolve the filter field by
case-insensitive match against the fieldnames, fail with FieldNotFound when
no fieldname matches, otherwise filter with the first match. -/
def filter_data (fieldnames : List Value) (fname value : String) (data : List Record) :
    Except PyErr (List Record) :=
  match matching_fields fname fieldnames with
  | .error e => Except.error e
  | .ok [] => Except.error .fieldNotFound
  | .ok (f :: _) => filter_rows f value data

/-- Embedding of the per-worksheet part of ExcelProcessor.process (lines
69 to 88): extract the table rows, fail with TablesNotFound when there are
none, take the first table row as the header (fieldnames), materialize the
remaining rows, filter them, fail with RowsNotFound when nothing survives,
project the survivors, and extract the metadata rows. Returns the metadata
rows, the fieldnames and the prepared Records. -/
def process_sheet (wanted : List String) (fname value : String) (rows : List Row) :
    Except PyErr (List Row × List Value × List Record) :=
  match rows_of_table wanted rows with
  | [] => Except.error .tablesNotFound
  | header :: dataRows =>
    match filter_data header fname value (format_data header dataRows) with
    | .error e => Except.error e
    | .ok [] => Except.error .rowsNotFound
    | .ok filtered =>
      Except.ok (get_meta_data wanted rows, header, del_fields wanted header filtered)

/-- Sheet loop of ExcelProcessor.process: every worksheet is processed in
order and the first per-sheet error aborts the whole run. -/
def process_all (wanted : List String) (fname value : String) :
    List (List Row) → Except PyErr (List (List Row × List Value × List Record))
  | [] => Except.ok []
  | s :: ss =>
    match process_sheet wanted fname value s with
    | .error e => Except.error e
    | .ok r => (process_all wanted fname value ss).map (fun rest => r :: rest)

/-- Modelled from the spec: the OS file operations are outside src
(openpyxl load_workbook and Workbook.save), so the locked or unwritable
states of the two files are abstracted to boolean flags; load_workbook
raises PermissionError on a locked source, which ExcelProcessor.__init__
re-raises. -/
def open_source (sourceLocked : Bool) (sheets : List (List Row)) :
    Except PyErr (List (List Row)) :=
  if sourceLocked then Except.error .permissionError else Except.ok sheets

/-- Modelled from the spec: Workbook.save at the end of process raises
PermissionError on an unwritable destination, which process re-raises; the
save call is the only write of the output file. -/
def save_output (destLocked : Bool) : Except PyErr Unit :=
  if destLocked then Except.error .permissionError else Except.ok ()

/-- Whole-run embedding of ExcelProcessor.__init__ followed by process:
open the source workbook, run the pipeline on every sheet, then save. The
Bool of the result records whether the output file was written; the only
write happens at the final save. -/
def run_processor (sourceLocked destLocked : Bool) (wanted : List String)
    (fname value : String) (sheets : List (List Row)) : Except PyErr String × Bool :=
  match open_source sourceLocked sheets with
  | .error e => (Except.error e, false)
  | .ok wb =>
    match process_all wanted fname value wb with
    | .error e => (Except.error e, false)
    | .ok _ =>
      match save_output destLocked with
      | .error e => (Except.error e, false)
      | .ok _ => (Except.ok "Готово", true)

/-- Keys of a Record, in order. -/
def recordKeys (r : Record) : List Value :=
  r.map (fun p => p.1)

/-- Test used to model the Python type distinction drawn by .lower(): only
string cell values carry that method. -/
def Value.isStr : Value → Bool
  | .vstr _ => true
  | _ => false

/-- Modelled from the spec: "find the header name whose lowercase form
equals the lowercase form of the requested filter field name" with
"first match wins". This is the notion the implementation is compared
against; the implementation is matching_fields. -/
def first_match_spec (fname : String) : List Value → Option String
  | [] => none
  | .vstr s :: rest =>
    if pyLower s == pyLower fname then some s else first_match_spec fname rest
  | _ :: rest => first_match_spec fname rest

instance exceptDecEq {ε α : Type} [DecidableEq ε] [DecidableEq α] :
    DecidableEq (Except ε α) := fun a b =>
  match a, b with
  | .ok x, .ok y =>
    match decEq x y with
    | isTrue h => isTrue (h ▸ rfl)
    | isFalse h => isFalse (fun hc => h (by cases hc; rfl))
  | .error x, .error y =>
    match decEq x y with
    | isTrue h => isTrue (h ▸ rfl)
    | isFalse h => isFalse (fun hc => h (by cases hc; rfl))
  | .ok _, .error _ => isFalse (fun hc => Except.noConfusion hc)
  | .error _, .ok _ => isFalse (fun hc => Except.noConfusion hc)

theorem rows_of_tableAux_true (wanted : List String) :
    ∀ rs : List Row, rows_of_tableAux wanted true rs = rs := by
  intro rs
  induction rs with
  | nil => rfl
  | cons r rs ih => simp [rows_of_tableAux, ih]

theorem get_meta_dataAux_true (wanted : List String) :
    ∀ rs : List Row, get_meta_dataAux wanted true rs = [] := by
  intro rs
  induction rs with
  | nil => rfl
  | cons r rs ih => simp [get_meta_dataAux, ih]

theorem rows_of_table_eq_dropWhile (wanted : List String) (rows : List Row) :
    rows_of_table wanted rows = rows.dropWhile (fun r => !rowHasWanted wanted r) := by
  induction rows with
  | nil => rfl
  | cons r rs ih =>
    by_cases h : rowHasWanted wanted r = true
    · simp [rows_of_table, rows_of_tableAux, h, List.dropWhile, rows_of_tableAux_true]
    · simp only [Bool.not_eq_true] at h
      simpa [rows_of_table, rows_of_tableAux, h, List.dropWhile] using ih

theorem get_meta_data_eq_takeWhile (wanted : List String) (rows : List Row) :
    get_meta_data wanted rows = rows.takeWhile (fun r => !rowHasWanted wanted r) := by
  induction rows with
  | nil => rfl
  | cons r rs ih =>
    by_cases h : rowHasWanted wanted r = true
    · simp [get_meta_data, get_meta_dataAux, h, List.takeWhile, get_meta_dataAux_true]
    · simp only [Bool.not_eq_true] at h
      simpa [get_meta_data, get_meta_dataAux, h, List.takeWhile] using ih

/-- C2: for every worksheet the classifier partitions the original row
sequence: metadata rows followed by table rows is exactly the original
sequence, and the two segments are the takeWhile and dropWhile of the
original sequence at the predicate "contains no whitelisted column name",
so the boundary, once crossed at the first row containing a whitelisted
name, never flips back: every later row is a table row whether or not it
contains a whitelisted name. -/
theorem classifier_partitions (wanted : List String) (rows : List Row) :
    get_meta_data wanted rows ++ rows_of_table wanted rows = rows
    ∧ get_meta_data wanted rows = rows.takeWhile (fun r => !rowHasWanted wanted r)
    ∧ rows_of_table wanted rows = rows.dropWhile (fun r => !rowHasWanted wanted r) := by
  refine ⟨?_, get_meta_data_eq_takeWhile wanted rows, rows_of_table_eq_dropWhile wanted rows⟩
  rw [get_meta_data_eq_takeWhile, rows_of_table_eq_dropWhile]
  exact List.takeWhile_append_dropWhile _ _

theorem mem_recordKeys_dictInsert (d : Record) (k v k2 : Value) :
    k2 ∈ recordKeys (dictInsert d k v) ↔ k2 ∈ recordKeys d ∨ k2 = k := by
  unfold dictInsert
  by_cases h : d.any (fun p => p.1 == k) = true
  · have hk : k ∈ recordKeys d := by
      rcases List.any_eq_true.mp h with ⟨p, hp, hpk⟩
      exact List.mem_map.mpr ⟨p, hp, (beq_iff_eq.mp hpk)⟩
    have hkeys : recordKeys (d.map fun p => if p.1 == k then (p.1, v) else p) = recordKeys d := by
      unfold recordKeys
      rw [List.map_map]
      refine List.map_congr_left ?_
      intro p _
      by_cases hp : p.1 = k <;> simp [hp]
    rw [if_pos h, hkeys]
    constructor
    · exact Or.inl
    · rintro (h2 | rfl)
      · exact h2
      · exact hk
  · rw [if_neg h]
    unfold recordKeys
    simp

theorem mem_recordKeys_foldl (ps : List (Value × Value)) (acc : Record) (k : Value) :
    k ∈ recordKeys (ps.foldl (fun d p => dictInsert d p.1 p.2) acc)
      ↔ k ∈ recordKeys acc ∨ k ∈ ps.map (fun p => p.1) := by
  induction ps generalizing acc with
  | nil => simp
  | cons p ps ih =>
    rw [List.foldl_cons, ih, mem_recordKeys_dictInsert]
    simp only [List.map_cons, List.mem_cons]
    tauto

theorem map_fst_zip_eq_take (as bs : List Value) :
    (as.zip bs).map (fun p => p.1) = as.take bs.length := by
  induction as generalizing bs with
  | nil => simp
  | cons a as ih =>
    cases bs with
    | nil => simp
    | cons b bs => simp [List.zip_cons_cons, ih]

theorem mem_recordKeys_format_row (fieldnames : List Value) (row : Row) (k : Value) :
    k ∈ recordKeys (format_row fieldnames row) ↔ k ∈ fieldnames.take row.length := by
  unfold format_row
  rw [mem_recordKeys_foldl, map_fst_zip_eq_take]
  simp [recordKeys]

theorem dictGet_eq_none_iff (d : Record) (k : Value) :
    dictGet d k = none ↔ k ∉ recordKeys d := by
  unfold dictGet recordKeys
  rw [Option.map_eq_none', List.find?_eq_none]
  constructor
  · intro h hc
    rcases List.mem_map.mp hc with ⟨p, hp, hk⟩
    exact absurd (by simp [hk] : (p.1 == k) = true) (by simpa using h p hp)
  · intro h p hp hb
    exact h (List.mem_map.mpr ⟨p, hp, by simpa using hb⟩)

theorem del_fields_row_eq_filter (wanted : List String) (fieldnames : List Value) (r : Record) :
    del_fields_row wanted fieldnames r
      = r.filter (fun p => fieldnames.all (fun f => valueInWanted wanted f || p.1 != f)) := by
  induction fieldnames generalizing r with
  | nil =>
    simp [del_fields_row]
  | cons f fs ih =>
    have hstep : del_fields_row wanted (f :: fs) r
        = del_fields_row wanted fs (if valueInWanted wanted f then r else dictPop r f) := rfl
    rw [hstep, ih]
    by_cases hw : valueInWanted wanted f = true
    · rw [if_pos hw]
      refine List.filter_congr ?_
      intro p _
      simp [List.all_cons, hw]
    · rw [if_neg hw]
      have hw2 : valueInWanted wanted f = false := by
        simpa using hw
      unfold dictPop
      rw [List.filter_filter]
      refine List.filter_congr ?_
      intro p _
      simp [List.all_cons, hw2, Bool.and_comm]

theorem recordKeys_filter (q : Value → Bool) (r : Record) :
    recordKeys (r.filter (fun p => q p.1)) = (recordKeys r).filter q := by
  induction r with
  | nil => rfl
  | cons p ps ih =>
    by_cases hq : q p.1 = true <;> simp [recordKeys, List.filter_cons, hq] <;>
      simpa [recordKeys] using ih

theorem filter_rows_subset (f value : String) :
    ∀ (data res : List Record), filter_rows f value data = Except.ok res → res ⊆ data := by
  intro data
  induction data with
  | nil =>
    intro res h
    simp only [filter_rows, Except.ok.injEq] at h
    subst h
    exact fun x hx => hx
  | cons a as ih =>
    intro res h
    unfold filter_rows at h
    cases hg : dictGet a (.vstr f) with
    | none => rw [hg] at h; cases h
    | some cv =>
      rw [hg] at h
      cases hrec : filter_rows f value as with
      | error e => rw [hrec] at h; cases h
      | ok rest =>
        rw [hrec] at h
        simp only [Except.map, Except.ok.injEq] at h
        subst h
        have hsub := ih rest hrec
        by_cases hp : (pyStr cv == value) = true
        · rw [if_pos hp]
          exact List.cons_subset_cons a hsub
        · rw [if_neg hp]
          exact hsub.trans (List.subset_cons_self a as)

theorem filter_data_subset (fieldnames : List Value) (fname value : String)
    (data res : List Record) (h : filter_data fieldnames fname value data = Except.ok res) :
    res ⊆ data := by
  unfold filter_data at h
  cases hm : matching_fields fname fieldnames with
  | error e => rw [hm] at h; cases h
  | ok l =>
    rw [hm] at h
    cases l with
    | nil => cases h
    | cons f fs => exact filter_rows_subset f value data res h

/-- C7 counterexample: a data row with fewer cells than the header makes a
Record whose key set is a strict subset of the column set of the header
row, so the claim that every materialized Record carries exactly the header
column set as keys, including for short rows, fails on the code. -/
theorem record_keys_cex :
    Value.vstr "B" ∈ ([Value.vstr "A", Value.vstr "B"] : List Value)
    ∧ Value.vstr "B" ∉ recordKeys (format_row [Value.vstr "A", Value.vstr "B"] [Value.vstr "x"]) := by
  decide

/-- C7 amended: every Record produced by the materializer has as its key
set exactly the header names that its row reaches, namely the first
min(row length, header length) header names (so the full header column set
whenever the row is at least as long as the header), and after projection
every remaining key is whitelisted. -/
theorem record_keys_amended (wanted : List String) (fieldnames : List Value) (row : Row) :
    (∀ k, k ∈ recordKeys (format_row fieldnames row) ↔ k ∈ fieldnames.take row.length)
    ∧ (∀ k, k ∈ recordKeys (del_fields_row wanted fieldnames (format_row fieldnames row)) →
        valueInWanted wanted k = true) := by
  constructor
  · exact fun k => mem_recordKeys_format_row fieldnames row k
  · intro k hk
    rw [del_fields_row_eq_filter] at hk
    rcases List.mem_map.mp hk with ⟨p, hp, rfl⟩
    have hmem := List.mem_filter.mp hp
    have hpk : p.1 ∈ fieldnames := by
      have hin : p.1 ∈ recordKeys (format_row fieldnames row) :=
        List.mem_map.mpr ⟨p, hmem.1, rfl⟩
      exact List.take_subset _ _ ((mem_recordKeys_format_row fieldnames row p.1).mp hin)
    have hall := List.all_eq_true.mp hmem.2 p.1 hpk
    simpa using hall

theorem record_keys_amended_witness :
    (Value.vstr "A" ∈ recordKeys (format_row [Value.vstr "A", Value.vstr "B"] [Value.vstr "x"])
      ↔ Value.vstr "A" ∈ ([Value.vstr "A", Value.vstr "B"] : List Value).take 1)
    ∧ valueInWanted ["A"] (Value.vstr "A") = true := by
  constructor
  · exact (record_keys_amended ["A"] [Value.vstr "A", Value.vstr "B"] [Value.vstr "x"]).1
      (Value.vstr "A")
  · exact (record_keys_amended ["A"] [Value.vstr "A", Value.vstr "B"] [Value.vstr "x"]).2
      (Value.vstr "A") (by decide)

/-- C3 counterexample: a Record built from a row shorter than the header
survives filtering, yet after projection its key set misses the
whitelisted header column of the missing cell, so the key set is not the
intersection of the whitelist with the header columns. -/
theorem projection_keyset_cex :
    filter_data [Value.vstr "A", Value.vstr "B"] "A" "x"
        (format_data [Value.vstr "A", Value.vstr "B"] [[Value.vstr "x"]])
      = Except.ok [[(Value.vstr "A", Value.vstr "x")]]
    ∧ Value.vstr "B" ∉ recordKeys (del_fields_row ["A", "B"] [Value.vstr "A", Value.vstr "B"]
        [(Value.vstr "A", Value.vstr "x")])
    ∧ valueInWanted ["A", "B"] (Value.vstr "B") = true
    ∧ Value.vstr "B" ∈ ([Value.vstr "A", Value.vstr "B"] : List Value) := by
  decide

/-- C3 amended: for every Record that survives filtering, projection keeps
exactly the whitelisted entries of that Record: the projected Record is the
Record filtered to its whitelisted keys, hence its key set is the
intersection of the whitelist with the keys the Record actually has (which
is whitelist ∩ headerColumns when the Record has every header column); no
extraneous key appears, no whitelisted key present in the Record is
dropped, and a whitelisted key absent from the Record stays absent. -/
theorem projection_keys_amended (wanted : List String) (fieldnames : List Value)
    (fname value : String) (rawRows : List Row) (result : List Record)
    (hres : filter_data fieldnames fname value (format_data fieldnames rawRows)
      = Except.ok result)
    (r : Record) (hr : r ∈ result) :
    del_fields_row wanted fieldnames r = r.filter (fun p => valueInWanted wanted p.1)
    ∧ recordKeys (del_fields_row wanted fieldnames r)
        = (recordKeys r).filter (valueInWanted wanted) := by
  have hdata : r ∈ format_data fieldnames rawRows :=
    filter_data_subset fieldnames fname value _ result hres hr
  rcases List.mem_map.mp hdata with ⟨row, _, rfl⟩
  have hkeys : ∀ k ∈ recordKeys (format_row fieldnames row), k ∈ fieldnames := fun k hk =>
    List.take_subset _ _ ((mem_recordKeys_format_row fieldnames row k).mp hk)
  have h1 : del_fields_row wanted fieldnames (format_row fieldnames row)
      = (format_row fieldnames row).filter (fun p => valueInWanted wanted p.1) := by
    rw [del_fields_row_eq_filter]
    refine List.filter_congr ?_
    intro p hp
    have hpk : p.1 ∈ fieldnames := hkeys p.1 (List.mem_map.mpr ⟨p, hp, rfl⟩)
    by_cases hw : valueInWanted wanted p.1 = true
    · rw [hw]
      refine List.all_eq_true.mpr ?_
      intro f hf
      by_cases hfp : p.1 = f
      · simp [← hfp, hw]
      · have hb : (p.1 != f) = true := by simpa [bne_iff_ne] using hfp
        simp [hb]
    · have hw2 : valueInWanted wanted p.1 = false := by simpa using hw
      rw [hw2]
      cases hall : fieldnames.all (fun f => valueInWanted wanted f || p.1 != f) with
      | false => rfl
      | true =>
        exfalso
        have := List.all_eq_true.mp hall p.1 hpk
        simp [hw2] at this
  exact ⟨h1, by rw [h1]; exact recordKeys_filter (valueInWanted wanted) (format_row fieldnames row)⟩

theorem projection_keys_amended_witness :
    del_fields_row ["A"] [Value.vstr "A", Value.vstr "B"]
        [(Value.vstr "A", Value.vstr "x"), (Value.vstr "B", Value.vstr "y")]
      = List.filter (fun p => valueInWanted ["A"] p.1)
          [(Value.vstr "A", Value.vstr "x"), (Value.vstr "B", Value.vstr "y")]
    ∧ recordKeys (del_fields_row ["A"] [Value.vstr "A", Value.vstr "B"]
          [(Value.vstr "A", Value.vstr "x"), (Value.vstr "B", Value.vstr "y")])
        = List.filter (valueInWanted ["A"])
            (recordKeys [(Value.vstr "A", Value.vstr "x"), (Value.vstr "B", Value.vstr "y")]) :=
  projection_keys_amended ["A"] [Value.vstr "A", Value.vstr "B"] "a" "x"
    [[Value.vstr "x", Value.vstr "y"]]
    [[(Value.vstr "A", Value.vstr "x"), (Value.vstr "B", Value.vstr "y")]]
    (by decide)
    [(Value.vstr "A", Value.vstr "x"), (Value.vstr "B", Value.vstr "y")] (by decide)

theorem filter_rows_mem_iff (f value : String) :
    ∀ (data res : List Record), filter_rows f value data = Except.ok res →
      ∀ r ∈ data, ∀ cv, dictGet r (Value.vstr f) = some cv →
        (r ∈ res ↔ pyStr cv = value) := by
  intro data
  induction data with
  | nil =>
    intro res _ r hr
    cases hr
  | cons a as ih =>
    intro res h r hr cv hcv
    unfold filter_rows at h
    cases hg : dictGet a (.vstr f) with
    | none => rw [hg] at h; cases h
    | some cva =>
      rw [hg] at h
      cases hrec : filter_rows f value as with
      | error e => rw [hrec] at h; cases h
      | ok rest =>
        rw [hrec] at h
        simp only [Except.map, Except.ok.injEq] at h
        subst h
        rcases List.mem_cons.mp hr with rfl | hras
        · rw [hg] at hcv
          injection hcv with hcv
          subst hcv
          by_cases hp : pyStr cva = value
          · rw [if_pos (by simp [hp])]
            simp [hp]
          · rw [if_neg (by simp [hp])]
            simp only [hp, iff_false]
            intro hmem
            have hsub := filter_rows_subset f value as rest hrec
            exact hp ((ih rest hrec r (hsub hmem) cva hg).mp hmem)
        · have hiff := ih rest hrec r hras cv hcv
          by_cases hp : pyStr cva = value
          · rw [if_pos (by simp [hp])]
            constructor
            · intro hm
              rcases List.mem_cons.mp hm with rfl | hm2
              · rw [hg] at hcv
                injection hcv with hcv
                rw [← hcv]
                exact hp
              · exact hiff.mp hm2
            · intro hv
              exact List.mem_cons_of_mem a (hiff.mpr hv)
          · rw [if_neg (by simp [hp])]
            exact hiff

/-- C1: a materialized Record that carries the matched header name as a key
survives filtering if and only if the Python str form of its cell at that
key equals the target value string exactly; string equality is ordinary and
case sensitive, so a cell value differing only in case from the target is
excluded (instantiated in the witness). -/
theorem filter_survives_iff (fieldnames : List Value) (fname value : String)
    (data res : List Record) (f : String) (fs : List String)
    (hmf : matching_fields fname fieldnames = Except.ok (f :: fs))
    (hres : filter_data fieldnames fname value data = Except.ok res)
    (r : Record) (hr : r ∈ data) (cv : Value)
    (hcv : dictGet r (Value.vstr f) = some cv) :
    r ∈ res ↔ pyStr cv = value := by
  unfold filter_data at hres
  rw [hmf] at hres
  exact filter_rows_mem_iff f value data res hres r hr cv hcv

theorem filter_survives_iff_witness :
    [(Value.vstr "Post", Value.vstr "director")] ∈ ([] : List Record)
      ↔ pyStr (Value.vstr "director") = "Director" :=
  filter_survives_iff [Value.vstr "Post"] "post" "Director"
    [[(Value.vstr "Post", Value.vstr "director")]] [] "Post" []
    (by decide) (by decide)
    [(Value.vstr "Post", Value.vstr "director")] (by decide)
    (Value.vstr "director") (by decide)

theorem matching_fields_of_strings (fname : String) :
    ∀ fieldnames : List Value, (∀ v ∈ fieldnames, Value.isStr v = true) →
      ∃ l, matching_fields fname fieldnames = Except.ok l
        ∧ l.head? = first_match_spec fname fieldnames := by
  intro fieldnames
  induction fieldnames with
  | nil => exact fun _ => ⟨[], rfl, rfl⟩
  | cons w rest ih =>
    intro h
    have hw := h w (List.mem_cons_self w rest)
    cases w with
    | vstr s =>
      rcases ih (fun x hx => h x (List.mem_cons_of_mem _ hx)) with ⟨l, hok, hhead⟩
      by_cases hm : (pyLower s == pyLower fname) = true
      · refine ⟨s :: l, ?_, ?_⟩
        · unfold matching_fields
          rw [hok]
          simp [Except.map, hm]
        · simp [first_match_spec, hm]
      · refine ⟨l, ?_, ?_⟩
        · unfold matching_fields
          rw [hok]
          simp [Except.map, hm]
        · simp [first_match_spec, hm, hhead]
    | vint n => simp [Value.isStr] at hw
    | vnone => simp [Value.isStr] at hw

theorem filter_rows_error_keyError (f value : String) :
    ∀ (data : List Record) (e : PyErr), filter_rows f value data = Except.error e →
      e = PyErr.keyError (Value.vstr f) := by
  intro data
  induction data with
  | nil => intro e h; cases h
  | cons a as ih =>
    intro e h
    unfold filter_rows at h
    cases hg : dictGet a (.vstr f) with
    | none =>
      rw [hg] at h
      injection h with h2
      exact h2.symm
    | some cv =>
      rw [hg] at h
      cases hrec : filter_rows f value as with
      | error e2 =>
        rw [hrec] at h
        simp only [Except.map, Except.error.injEq] at h
        subst h
        exact ih e2 hrec
      | ok rest =>
        rw [hrec] at h
        simp [Except.map] at h

theorem matching_fields_error_attr (fname : String) :
    ∀ (fieldnames : List Value) (e : PyErr),
      matching_fields fname fieldnames = Except.error e → e = PyErr.attributeError := by
  intro fieldnames
  induction fieldnames with
  | nil => intro e h; cases h
  | cons w rest ih =>
    intro e h
    cases w with
    | vstr s =>
      unfold matching_fields at h
      cases hrec : matching_fields fname rest with
      | error e2 =>
        rw [hrec] at h
        simp only [Except.map, Except.error.injEq] at h
        subst h
        exact ih e2 hrec
      | ok l =>
        rw [hrec] at h
        simp [Except.map] at h
    | vint n =>
      injection h with h2
      exact h2.symm
    | vnone =>
      injection h with h2
      exact h2.symm

theorem filter_data_error_ne (fieldnames : List Value) (fname value : String)
    (data : List Record) (e : PyErr)
    (h : filter_data fieldnames fname value data = Except.error e) :
    e ≠ PyErr.tablesNotFound ∧ e ≠ PyErr.rowsNotFound := by
  unfold filter_data at h
  cases hm : matching_fields fname fieldnames with
  | error e2 =>
    rw [hm] at h
    injection h with h2
    subst h2
    have := matching_fields_error_attr fname fieldnames e2 hm
    subst this
    exact ⟨by simp, by simp⟩
  | ok l =>
    rw [hm] at h
    cases l with
    | nil =>
      injection h with h2
      subst h2
      exact ⟨by simp, by simp⟩
    | cons f fs =>
      have := filter_rows_error_keyError f value data e h
      subst this
      exact ⟨by simp, by simp⟩

/-- C4: when every header cell is a string, filtering fails with
FieldNotFound exactly when no header name matches the requested field name
case-insensitively, and when a match exists the first matching header in
header order is the one the filter uses. -/
theorem field_resolution (fieldnames : List Value) (fname value : String) (data : List Record)
    (hstr : ∀ v ∈ fieldnames, Value.isStr v = true) :
    (filter_data fieldnames fname value data = Except.error PyErr.fieldNotFound
      ↔ first_match_spec fname fieldnames = none)
    ∧ (∀ f, first_match_spec fname fieldnames = some f →
        filter_data fieldnames fname value data = filter_rows f value data) := by
  rcases matching_fields_of_strings fname fieldnames hstr with ⟨l, hok, hhead⟩
  unfold filter_data
  rw [hok]
  cases l with
  | nil =>
    have h0 : first_match_spec fname fieldnames = none := by rw [← hhead]; rfl
    refine ⟨iff_of_true rfl h0, ?_⟩
    intro f hf
    rw [h0] at hf
    cases hf
  | cons f2 fs =>
    have h0 : first_match_spec fname fieldnames = some f2 := by rw [← hhead]; rfl
    constructor
    · constructor
      · intro hcontra
        have := filter_rows_error_keyError f2 value data _ hcontra
        simp at this
      · intro hnone
        rw [h0] at hnone
        cases hnone
    · intro f hf
      rw [h0] at hf
      injection hf with hf
      subst hf
      rfl

theorem field_resolution_witness :
    (filter_data [Value.vstr "Пол"] "Рост" "1" [] = Except.error PyErr.fieldNotFound
      ↔ first_match_spec "Рост" [Value.vstr "Пол"] = none)
    ∧ filter_data [Value.vstr "ФИО", Value.vstr "фио"] "фИо" "x" []
        = filter_rows "ФИО" "x" [] := by
  refine ⟨(field_resolution [Value.vstr "Пол"] "Рост" "1" [] (by decide)).1, ?_⟩
  exact (field_resolution [Value.vstr "ФИО", Value.vstr "фио"] "фИо" "x" [] (by decide)).2
    "ФИО" (by decide)

/-- C5: given that a worksheet has a table (a header row) and filtering
itself succeeds, processing the worksheet fails with RowsNotFound exactly
when the filtered stream is empty; when at least one Record survives,
RowsNotFound is not raised. -/
theorem rows_not_found_iff (wanted : List String) (fname value : String) (rows : List Row)
    (header : Row) (dataRows : List Row)
    (hTable : rows_of_table wanted rows = header :: dataRows)
    (filtered : List Record)
    (hFil : filter_data header fname value (format_data header dataRows) = Except.ok filtered) :
    process_sheet wanted fname value rows = Except.error PyErr.rowsNotFound
      ↔ filtered = [] := by
  unfold process_sheet
  rw [hTable]
  dsimp only
  rw [hFil]
  cases filtered with
  | nil => simp
  | cons a l => simp

theorem rows_not_found_iff_witness :
    (process_sheet ["A"] "a" "nope" [[Value.vstr "A"], [Value.vstr "x"]]
        = Except.error PyErr.rowsNotFound
      ↔ ([] : List Record) = []) :=
  rows_not_found_iff ["A"] "a" "nope" [[Value.vstr "A"], [Value.vstr "x"]]
    [Value.vstr "A"] [[Value.vstr "x"]] (by decide) [] (by decide)

/-- C6: processing a worksheet fails with TablesNotFound exactly when no
row of the worksheet contains any whitelisted column name (so the table
segment is empty); when some row contains a whitelisted name, whatever else
happens, the error TablesNotFound is not raised. -/
theorem tables_not_found_iff (wanted : List String) (fname value : String) (rows : List Row) :
    process_sheet wanted fname value rows = Except.error PyErr.tablesNotFound
      ↔ rows.all (fun r => !rowHasWanted wanted r) = true := by
  have hchar : (rows_of_table wanted rows = [])
      ↔ rows.all (fun r => !rowHasWanted wanted r) = true := by
    rw [rows_of_table_eq_dropWhile, List.dropWhile_eq_nil_iff, List.all_eq_true]
  constructor
  · intro h
    refine hchar.mp ?_
    cases hT : rows_of_table wanted rows with
    | nil => rfl
    | cons header dataRows =>
      exfalso
      unfold process_sheet at h
      rw [hT] at h
      dsimp only at h
      cases hF : filter_data header fname value (format_data header dataRows) with
      | error e =>
        rw [hF] at h
        injection h with h2
        exact (filter_data_error_ne header fname value _ e hF).1 h2
      | ok l =>
        rw [hF] at h
        cases l with
        | nil =>
          injection h with h2
          simp at h2
        | cons a l2 => cases h
  · intro h
    have h0 : rows_of_table wanted rows = [] := hchar.mpr h
    unfold process_sheet
    rw [h0]

theorem filter_rows_keyError (f value : String) :
    ∀ data : List Record, (∃ r ∈ data, dictGet r (Value.vstr f) = none) →
      filter_rows f value data = Except.error (PyErr.keyError (Value.vstr f)) := by
  intro data
  induction data with
  | nil =>
    rintro ⟨r, hr, _⟩
    cases hr
  | cons a as ih =>
    rintro ⟨r, hr, hget⟩
    unfold filter_rows
    cases hg : dictGet a (.vstr f) with
    | none => rfl
    | some cv =>
      have hras : r ∈ as := by
        rcases List.mem_cons.mp hr with rfl | h2
        · rw [hg] at hget; cases hget
        · exact h2
      rw [ih ⟨r, hras, hget⟩]
      rfl

/-- C9: once the filter field is resolved, a data row whose cell count does
not reach the matched filter column (so the zip-built Record lacks that
key) makes _filter_data raise KeyError through the unguarded dictionary
access, rather than skip the row or raise one of the error types of the
spec. -/
theorem filter_keyerror (fieldnames : List Value) (fname value : String)
    (rawRows : List Row) (f : String) (fs : List String)
    (hmf : matching_fields fname fieldnames = Except.ok (f :: fs))
    (row : Row) (hrow : row ∈ rawRows)
    (hshort : Value.vstr f ∉ fieldnames.take row.length) :
    filter_data fieldnames fname value (format_data fieldnames rawRows)
      = Except.error (PyErr.keyError (Value.vstr f)) := by
  unfold filter_data
  rw [hmf]
  have hget : dictGet (format_row fieldnames row) (Value.vstr f) = none :=
    (dictGet_eq_none_iff _ _).mpr
      (fun hc => hshort ((mem_recordKeys_format_row fieldnames row _).mp hc))
  exact filter_rows_keyError f value _
    ⟨format_row fieldnames row, List.mem_map_of_mem _ hrow, hget⟩

theorem filter_keyerror_witness :
    filter_data [Value.vstr "A", Value.vstr "B"] "b" "x"
        (format_data [Value.vstr "A", Value.vstr "B"] [[Value.vstr "v"]])
      = Except.error (PyErr.keyError (Value.vstr "B")) :=
  filter_keyerror [Value.vstr "A", Value.vstr "B"] "b" "x" [[Value.vstr "v"]] "B" []
    (by decide) [Value.vstr "v"] (by decide) (by decide)

theorem matching_fields_attr (fname : String) :
    ∀ fieldnames : List Value, (∃ v ∈ fieldnames, Value.isStr v = false) →
      matching_fields fname fieldnames = Except.error PyErr.attributeError := by
  intro fieldnames
  induction fieldnames with
  | nil =>
    rintro ⟨v, hv, _⟩
    cases hv
  | cons w rest ih =>
    rintro ⟨v, hv, hstr⟩
    cases w with
    | vstr s =>
      have hrest : v ∈ rest := by
        rcases List.mem_cons.mp hv with rfl | h2
        · cases hstr
        · exact h2
      unfold matching_fields
      rw [ih ⟨v, hrest, hstr⟩]
      rfl
    | vint n => rfl
    | vnone => rfl

/-- C10: header extraction passes blank and non-string header cells through
unchanged, so when the detected table has a header cell that is not a
string (blank None or numeric), _filter_data applies .lower() to it and the
worksheet processing fails with AttributeError instead of reaching a match
or FieldNotFound. -/
theorem header_lookup_attrerror (wanted : List String) (fname value : String) (rows : List Row)
    (header : Row) (dataRows : List Row)
    (hTable : rows_of_table wanted rows = header :: dataRows)
    (hbad : ∃ v ∈ header, Value.isStr v = false) :
    process_sheet wanted fname value rows = Except.error PyErr.attributeError := by
  unfold process_sheet
  rw [hTable]
  dsimp only
  have hf : filter_data header fname value (format_data header dataRows)
      = Except.error PyErr.attributeError := by
    unfold filter_data
    rw [matching_fields_attr fname header hbad]
  rw [hf]

theorem header_lookup_attrerror_witness :
    process_sheet ["A"] "A" "x"
        [[Value.vstr "A", Value.vnone], [Value.vstr "p", Value.vstr "q"]]
      = Except.error PyErr.attributeError :=
  header_lookup_attrerror ["A"] "A" "x"
    [[Value.vstr "A", Value.vnone], [Value.vstr "p", Value.vstr "q"]]
    [Value.vstr "A", Value.vnone] [[Value.vstr "p", Value.vstr "q"]]
    (by decide) ⟨Value.vnone, by decide, rfl⟩

/-- C8: a locked source file fails the whole run with the PermissionError
the spec taxonomy calls FileLockedError, before any output is written, and
an unwritable destination fails with the same error class, likewise with no
output written; the only write of the run is the final save. -/
theorem locked_file_behavior (destLocked : Bool) (wanted : List String) (fname value : String)
    (sheets : List (List Row)) :
    run_processor true destLocked wanted fname value sheets
        = (Except.error PyErr.permissionError, false)
    ∧ (∀ res, process_all wanted fname value sheets = Except.ok res →
        run_processor false true wanted fname value sheets
          = (Except.error PyErr.permissionError, false)) := by
  constructor
  · rfl
  · intro res h
    unfold run_processor
    have ho : open_source false sheets = Except.ok sheets := rfl
    rw [ho]
    dsimp only
    rw [h]
    rfl

theorem locked_file_behavior_witness :
    run_processor true false ["A"] "A" "x" [[[Value.vstr "A"], [Value.vstr "x"]]]
        = (Except.error PyErr.permissionError, false)
    ∧ run_processor false true ["A"] "A" "x" [[[Value.vstr "A"], [Value.vstr "x"]]]
        = (Except.error PyErr.permissionError, false) :=
  ⟨(locked_file_behavior false ["A"] "A" "x" [[[Value.vstr "A"], [Value.vstr "x"]]]).1,
   (locked_file_behavior false ["A"] "A" "x" [[[Value.vstr "A"], [Value.vstr "x"]]]).2
     [([], [Value.vstr "A"], [[(Value.vstr "A", Value.vstr "x")]])] rfl⟩

end ExcelProcessor
